import Mathlib

/-!
Verification of the Word Hunt / Boggle-style 4x4 solver
(`src/solver/wordhunt_cpp.cpp`) against its specification.

The embedding follows the C++ source closely:
* `word_score` mirrors the scoring switch (C `int` modelled as `Int`);
* `TrieNode` / `Trie` mirror `Trie::Node` (26-slot `int next[26]`, `-1`
  absent) and `vector<Node>` (modelled as a `List TrieNode`);
* `neighbors` mirrors `build_neighbors_4x4`;
* `dfs` mirrors `dfs_all_words`, with the two by-reference mutable
  arguments (`cur`, `outWords`) threaded as explicit state and a fuel
  parameter standing in for the call stack;
* `parse_board_string` mirrors the string branch of `parse_board_any`;
* `buildTrie` mirrors the token-filtering loop of the `Dictionary`
  constructor (the whitespace-delimited file reader being the external
  collaborator, its output is modelled as a list of tokens);
* `solveCore` mirrors `Dictionary::solve` (the `std::sort` with a strict
  total comparator over duplicate-free data is modelled as
  `List.insertionSort` with the reflexive closure of that comparator,
  which produces the same, unique, sorted arrangement);
* `generate_board` mirrors `generate_board_py` on top of a faithful
  mt19937 and a sampler for `std::discrete_distribution` (whose exact
  algorithm is implementation-defined, see `sampleLetterIdx`).
-/

/-- `word_score` from the source: the length-to-points table. -/
def word_score (len : Int) : Int :=
  if len < 3 then 0
  else if len = 3 then 100
  else if len = 4 then 400
  else if len = 5 then 800
  else if len = 6 then 1400
  else if len = 7 then 1800
  else 2200 + 400 * (len - 8)

/-- `Trie::Node`: 26-slot child table (`-1` = absent) plus a terminal flag. -/
structure TrieNode where
  next : Fin 26 → Int
  terminal : Bool

/-- A fresh node: all children absent, not terminal (`Node()` in the source). -/
def emptyNode : TrieNode := ⟨fun _ => -1, false⟩

/-- `Trie`: vector of nodes, index 0 is the root. -/
structure Trie where
  t : List TrieNode

/-- `Trie()` constructor: a single root node. -/
def Trie.init : Trie := ⟨[emptyNode]⟩

/-- Node access `t[v]` (out-of-range reads yield `emptyNode`; the
well-formedness predicate `Trie.wf` shows in-range nodes are the only ones
the program ever touches). -/
def Trie.getNode (tr : Trie) (v : Nat) : TrieNode := tr.t.getD v emptyNode

/-- Child lookup `t[v].next[k]`. -/
def childIdx (tr : Trie) (v : Nat) (k : Fin 26) : Int := (tr.getNode v).next k

/-- The recursive worker of `Trie::insert`, walking/extending from node `v`:
on a missing child, store the fresh index `t.size()` and push a new node. -/
def Trie.insertAux (tr : Trie) (v : Nat) : List (Fin 26) → Trie
  | [] => ⟨tr.t.set v ⟨(tr.getNode v).next, true⟩⟩
  | k :: rest =>
    let nd := tr.getNode v
    if nd.next k = -1 then
      let tr' : Trie :=
        ⟨(tr.t.set v ⟨Function.update nd.next k (tr.t.length : Int), nd.terminal⟩).concat
          emptyNode⟩
      tr'.insertAux tr.t.length rest
    else
      tr.insertAux (nd.next k).toNat rest

/-- `Trie::insert`, starting at the root. -/
def Trie.insert (tr : Trie) (w : List (Fin 26)) : Trie := tr.insertAux 0 w

/-- ASCII `isalpha` under the C locale. -/
def isalphaB (c : Char) : Bool :=
  (65 ≤ c.toNat && c.toNat ≤ 90) || (97 ≤ c.toNat && c.toNat ≤ 122)

/-- ASCII `tolower` under the C locale. -/
def tolowerC (c : Char) : Char :=
  if 65 ≤ c.toNat ∧ c.toNat ≤ 90 then Char.ofNat (c.toNat + 32) else c

/-- The branch index `c - 'a'` of a (lowercase) character; callers only
apply it to characters already validated to lie in `a`–`z`, so the wrap
`% 26` keeping the result in range never fires on real inputs. -/
def letterIdx (c : Char) : Fin 26 := ⟨(c.toNat - 97) % 26, Nat.mod_lt _ (by omega)⟩

/-- `build_neighbors_4x4`: king-move neighbors of cell `v` of the 4×4 grid,
in the source's loop order over `dr`, `dc`. -/
def neighbors (v : Fin 16) : List (Fin 16) :=
  let r : Int := v.val / 4
  let c : Int := v.val % 4
  (([-1, 0, 1] : List Int).flatMap fun dr =>
    ([-1, 0, 1] : List Int).filterMap fun dc =>
      if dr = 0 ∧ dc = 0 then none
      else
        let nr := r + dr
        let nc := c + dc
        if h : 0 ≤ nr ∧ nr < 4 ∧ 0 ≤ nc ∧ nc < 4 then
          some ⟨(nr * 4 + nc).toNat, by omega⟩
        else none)

/-- `outWords.insert(cur)` on the `unordered_set`: set-semantics insert. -/
def insertWord (w : List Char) (out : List (List Char)) : List (List Char) :=
  if w ∈ out then out else w :: out

/-- `dfs_all_words`. The two reference parameters `cur` (path string) and
`out` (found-word set) are threaded as state and returned; `fuel` bounds
the recursion depth (16 suffices, see the termination theorem). -/
def dfs (fuel : Nat) (cell : Fin 16) (usedMask : Nat) (trieNode : Nat)
    (board : Fin 16 → Char) (tr : Trie)
    (cur : List Char) (out : List (List Char)) : List Char × List (List Char) :=
  match fuel with
  | 0 => (cur, out)
  | fuel + 1 =>
    let ch := board cell
    if h : 97 ≤ ch.toNat ∧ ch.toNat < 123 then
      let k : Fin 26 := ⟨ch.toNat - 97, by omega⟩
      let nxt := childIdx tr trieNode k
      if nxt = -1 then (cur, out)
      else
        let mask1 := usedMask ||| (1 <<< cell.val)
        let cur1 := cur ++ [ch]
        let out1 :=
          if (tr.getNode nxt.toNat).terminal && decide (3 ≤ cur1.length) then
            insertWord cur1 out
          else out
        let st := (neighbors cell).foldl
          (fun st nb =>
            if (mask1 >>> nb.val) &&& 1 = 1 then st
            else dfs fuel nb mask1 nxt.toNat board tr st.1 st.2)
          (cur1, out1)
        (st.1.dropLast, st.2)
    else (cur, out)

/-- Reflexive word ordering used for the output: longer words first, equal
lengths in ascending lexicographic order (`std::string::operator<`). -/
def lexLt : List Char → List Char → Bool
  | [], [] => false
  | [], _ :: _ => true
  | _ :: _, [] => false
  | a :: as, b :: bs =>
    if a.toNat < b.toNat then true
    else if b.toNat < a.toNat then false
    else lexLt as bs

/-- The output order of `Dictionary::solve`: by descending length, then
ascending lexicographic order (reflexive closure of the `std::sort`
comparator). -/
def wordLE (a b : List Char) : Prop :=
  b.length < a.length ∨ (a.length = b.length ∧ (lexLt a b = true ∨ a = b))

instance : DecidableRel wordLE := fun a b => by
  unfold wordLE
  infer_instance

/-- The search phase of `Dictionary::solve`: one DFS per starting cell,
sharing `cur` and the found-word set. -/
def solveFound (board : Fin 16 → Char) (tr : Trie) : List Char × List (List Char) :=
  (List.finRange 16).foldl
    (fun st i => dfs 16 i 0 0 board tr st.1 st.2) ([], [])

/-- `Dictionary::solve` after board parsing: sort the found words and
accumulate the total score. -/
def solveCore (board : Fin 16 → Char) (tr : Trie) : List (List Char) × Int :=
  let found := (solveFound board tr).2
  let words := List.insertionSort wordLE found
  let total := words.foldl (fun acc w => acc + word_score w.length) 0
  (words, total)

/-- The 16-character-string branch of `parse_board_any`: keep alphabetic
characters, lowercase them, demand exactly 16. -/
def parse_board_string (s : List Char) : Except String (Fin 16 → Char) :=
  let t := (s.filter isalphaB).map tolowerC
  if t.length = 16 then Except.ok (fun i => t.getD i.val ' ')
  else Except.error "board string must contain 16 letters"

/-- A dictionary handle: the trie (the adjacency table it also owns is the
fixed function `neighbors`). -/
structure Dictionary where
  trie : Trie

/-- The token-filtering loop of the `Dictionary` constructor, over the
token list produced by the whitespace-delimited reader: a token is inserted
iff all its characters are alphabetic and its lowercased form has length ≥ 3. -/
def buildTrie (toks : List (List Char)) : Trie :=
  toks.foldl
    (fun tr w =>
      if w.all isalphaB && decide (3 ≤ (w.map tolowerC).length) then
        tr.insert ((w.map tolowerC).map letterIdx)
      else tr)
    Trie.init

/-- `Dictionary::Dictionary` on an already-tokenized source. -/
def Dictionary.build (toks : List (List Char)) : Dictionary := ⟨buildTrie toks⟩

/-- The words the constructor passes to `Trie::insert`, in order. -/
def acceptedWords (toks : List (List Char)) : List (List Char) :=
  toks.filterMap fun w =>
    if w.all isalphaB && decide (3 ≤ (w.map tolowerC).length) then
      some (w.map tolowerC)
    else none

/-- `Dictionary::solve` on a string board. -/
def Dictionary.solve (d : Dictionary) (s : List Char) :
    Except String (List (List Char) × Int) :=
  match parse_board_string s with
  | Except.error e => Except.error e
  | Except.ok board => Except.ok (solveCore board d.trie)

/-! ### Board generation (`generate_board_py`, `random_letter`)

`std::mt19937` is fully specified by the C++ standard and is embedded
faithfully below (32-bit words as `Nat` reduced `&&& 0xFFFFFFFF`). -/

/-- `2^32 - 1`, the 32-bit word mask. -/
def mtMask : Nat := 4294967295

/-- mt19937 state: the 624-word buffer plus the read index. -/
structure MTState where
  mt : List Nat
  idx : Nat

/-- mt19937 seeding (`std::mt19937 rng(seed)`): the standard
initialization recurrence with multiplier 1812433253. -/
def mtInit (seed : Nat) : MTState :=
  let mt := (List.range 624).foldl
    (fun acc i =>
      if i = 0 then [seed &&& mtMask]
      else
        let prev := acc.getD (i - 1) 0
        acc.concat ((1812433253 * (prev ^^^ (prev >>> 30)) + i) &&& mtMask))
    []
  ⟨mt, 624⟩

/-- The mt19937 twist, regenerating all 624 words. -/
def mtTwist (mt : List Nat) : List Nat :=
  (List.range 624).foldl
    (fun m i =>
      let x := ((m.getD i 0) &&& 2147483648) + ((m.getD ((i + 1) % 624) 0) &&& 2147483647)
      let xA := if x % 2 = 1 then (x >>> 1) ^^^ 2567483615 else x >>> 1
      m.set i ((m.getD ((i + 397) % 624) 0) ^^^ xA))
    mt

/-- The mt19937 tempering transform. -/
def mtTemper (y0 : Nat) : Nat :=
  let y1 := (y0 ^^^ (y0 >>> 11)) &&& mtMask
  let y2 := (y1 ^^^ ((y1 <<< 7) &&& 2636928640)) &&& mtMask
  let y3 := (y2 ^^^ ((y2 <<< 15) &&& 4022730752)) &&& mtMask
  (y3 ^^^ (y3 >>> 18)) &&& mtMask

/-- Draw one 32-bit value from the generator. -/
def mtNext (g : MTState) : Nat × MTState :=
  let g' := if 624 ≤ g.idx then MTState.mk (mtTwist g.mt) 0 else g
  (mtTemper (g'.mt.getD g'.idx 0), ⟨g'.mt, g'.idx + 1⟩)

/-- The letter-frequency weight table of `random_letter`, scaled by 100 to
integers (8.17 → 817, …). -/
def freqW : List Nat :=
  [817, 149, 278, 425, 1270, 223, 202, 609, 697, 15, 77, 403,
   241, 675, 751, 193, 10, 599, 633, 906, 276, 98, 236, 15, 197, 7]

/-- Cumulative weight table: entry `k` is the sum of the first `k + 1`
weights. -/
def cumW : List Nat := (List.range 26).map fun k => (freqW.take (k + 1)).sum

/-- Modelled from the spec: the sampling algorithm of
`std::discrete_distribution` is implementation-defined, so the categorical
draw over the normalized frequency table is modelled as inverse-CDF
sampling driven by one 32-bit draw (§4.5: each position drawn from the
fixed letter-frequency distribution after normalization). -/
def sampleLetterIdx (x : Nat) : Nat :=
  let target := x * freqW.sum / 4294967296
  cumW.findIdx fun s => decide (target < s)

/-- `random_letter`: one categorical draw, returned as `'a' + index`. -/
def random_letter (g : MTState) : Char × MTState :=
  let (x, g') := mtNext g
  (Char.ofNat (97 + sampleLetterIdx x), g')

/-- One iteration of the board-generation loop: draw a letter, append it. -/
def drawStep (st : List Char × MTState) (_i : Nat) : List Char × MTState :=
  let (c, g') := random_letter st.2
  (st.1.concat c, g')

/-- `generate_board_py`: seed the generator once, draw 16 letters. -/
def generate_board (seed : Nat) : List Char :=
  ((List.range 16).foldl drawStep ([], mtInit seed)).1

/-! ## Theorems -/

/-! ### Generic fold invariants -/

/-- A fold whose step preserves the first component leaves it unchanged. -/
theorem foldl_fst_invariant {α β γ : Type} (f : α × γ → β → α × γ)
    (hf : ∀ st b, (f st b).1 = st.1) :
    ∀ (ns : List β) (st0 : α × γ), (ns.foldl f st0).1 = st0.1 := by
  intro ns
  induction ns with
  | nil => intro st0; rfl
  | cons a ns ih =>
    intro st0
    rw [List.foldl_cons, ih, hf]

/-- A fold whose step preserves a predicate preserves it overall. -/
theorem foldl_invariant {α β : Type} (P : α → Prop) (f : α → β → α)
    (hf : ∀ st b, P st → P (f st b)) :
    ∀ (ns : List β) (st0 : α), P st0 → P (ns.foldl f st0) := by
  intro ns
  induction ns with
  | nil => intro st0 h; exact h
  | cons a ns ih =>
    intro st0 h
    rw [List.foldl_cons]
    exact ih _ (hf _ _ h)

/-! ### Bitmask arithmetic -/

/-- The source's visited test `(mask >> i) & 1` is bit `i` of the mask. -/
theorem bit_one_iff (m i : Nat) : ((m >>> i) &&& 1 = 1) ↔ m.testBit i := by
  simp [Nat.testBit, Nat.and_one_is_mod]

/-- Setting bit `c` (`mask |= 1 << c`) sets exactly that bit. -/
theorem testBit_or_shift (m c i : Nat) :
    (m ||| 1 <<< c).testBit i = (m.testBit i || decide (i = c)) := by
  simp only [Nat.testBit_or, Nat.shiftLeft_eq, Nat.one_mul, Nat.testBit_two_pow]
  by_cases h : i = c
  · simp [h]
  · have h' : ¬ c = i := fun hc => h hc.symm
    simp [h, h']

/-- Number of cells marked visited in a mask. -/
def vCount (mask : Nat) : Nat :=
  (Finset.univ.filter fun i : Fin 16 => mask.testBit i.val).card

theorem vCount_zero : vCount 0 = 0 := by decide

theorem vCount_lt (m : Nat) (c : Fin 16) (hc : ¬ m.testBit c.val) : vCount m < 16 := by
  have hsub : (Finset.univ.filter fun i : Fin 16 => m.testBit i.val) ⊂ Finset.univ := by
    refine ⟨Finset.filter_subset _ _, fun hsup => ?_⟩
    have := hsup (Finset.mem_univ c)
    rw [Finset.mem_filter] at this
    exact hc this.2
  have := Finset.card_lt_card hsub
  simpa [vCount] using this

theorem vCount_or (m : Nat) (c : Fin 16) (hc : ¬ m.testBit c.val) :
    vCount (m ||| 1 <<< c.val) = vCount m + 1 := by
  unfold vCount
  have hins : (Finset.univ.filter fun i : Fin 16 => (m ||| 1 <<< c.val).testBit i.val)
      = insert c (Finset.univ.filter fun i : Fin 16 => m.testBit i.val) := by
    ext i
    simp only [Finset.mem_filter, Finset.mem_univ, true_and, Finset.mem_insert,
      testBit_or_shift, Bool.or_eq_true, decide_eq_true_eq]
    constructor
    · rintro (h | h)
      · exact Or.inr h
      · exact Or.inl (Fin.ext h)
    · rintro (h | h)
      · exact Or.inr (by rw [h])
      · exact Or.inl h
  rw [hins, Finset.card_insert_of_not_mem (by simp [hc])]

/-! ### Fuel congruence: the recursion depth is bounded by the number of
unvisited cells, so any fuel of at least that much gives the same result. -/

theorem dfs_fuel_congr :
    ∀ (f₁ f₂ : Nat) (cell : Fin 16) (mask node : Nat) (board : Fin 16 → Char)
      (tr : Trie) (cur : List Char) (out : List (List Char)),
      ¬ mask.testBit cell.val → 16 - vCount mask ≤ f₁ → 16 - vCount mask ≤ f₂ →
      dfs f₁ cell mask node board tr cur out = dfs f₂ cell mask node board tr cur out := by
  intro f₁
  induction f₁ with
  | zero =>
    intro f₂ cell mask node board tr cur out hcell h₁ h₂
    have := vCount_lt mask cell hcell
    omega
  | succ a ih =>
    intro f₂ cell mask node board tr cur out hcell h₁ h₂
    match f₂ with
    | 0 =>
      have := vCount_lt mask cell hcell
      omega
    | b + 1 =>
      simp only [dfs]
      by_cases hr : 97 ≤ (board cell).toNat ∧ (board cell).toNat < 123
      · rw [dif_pos hr, dif_pos hr]
        by_cases hn : childIdx tr node ⟨(board cell).toNat - 97, by omega⟩ = -1
        · rw [if_pos hn, if_pos hn]
        · rw [if_neg hn, if_neg hn]
          have hcnt : vCount (mask ||| 1 <<< cell.val) = vCount mask + 1 :=
            vCount_or mask cell hcell
          have hfold :
              ∀ (ns : List (Fin 16)) (st0 : List Char × List (List Char)),
                ns.foldl
                  (fun st nb =>
                    if (mask ||| 1 <<< cell.val) >>> nb.val &&& 1 = 1 then st
                    else dfs a nb (mask ||| 1 <<< cell.val)
                      (childIdx tr node ⟨(board cell).toNat - 97, by omega⟩).toNat
                      board tr st.1 st.2) st0
                = ns.foldl
                  (fun st nb =>
                    if (mask ||| 1 <<< cell.val) >>> nb.val &&& 1 = 1 then st
                    else dfs b nb (mask ||| 1 <<< cell.val)
                      (childIdx tr node ⟨(board cell).toNat - 97, by omega⟩).toNat
                      board tr st.1 st.2) st0 := by
            intro ns
            induction ns with
            | nil => intro st0; rfl
            | cons x ns ihn =>
              intro st0
              rw [List.foldl_cons, List.foldl_cons, ihn]
              congr 1
              dsimp only
              by_cases hv : (mask ||| 1 <<< cell.val) >>> x.val &&& 1 = 1
              · rw [if_pos hv, if_pos hv]
              · rw [if_neg hv, if_neg hv]
                have hx : ¬ (mask ||| 1 <<< cell.val).testBit x.val := by
                  rw [← bit_one_iff]
                  exact hv
                exact ih b x _ _ board tr st0.1 st0.2 hx (by omega) (by omega)
          rw [hfold]
      · rw [dif_neg hr, dif_neg hr]

/-! ### Termination (claim C7) -/

/-- **C7.** The DFS always terminates with recursion depth bounded by 16:
from any start cell (all cells unvisited), every stack budget of at least
16 produces the same result as budget 16 — each recursive call adds a
previously unvisited cell to the mask, and no cell is reused in a branch,
so depth never exceeds the number of unvisited cells. -/
theorem dfs_terminates (board : Fin 16 → Char) (tr : Trie) (cell : Fin 16)
    (cur : List Char) (out : List (List Char)) (f : Nat) (hf : 16 ≤ f) :
    dfs f cell 0 0 board tr cur out = dfs 16 cell 0 0 board tr cur out :=
  dfs_fuel_congr f 16 cell 0 0 board tr cur out (by simp)
    (by rw [vCount_zero]; omega) (by rw [vCount_zero])

/-- Witness for C7 at a concrete configuration. -/
theorem dfs_terminates_witness :
    dfs 20 0 0 0 (fun _ => 'a') Trie.init [] [] =
      dfs 16 0 0 0 (fun _ => 'a') Trie.init [] [] :=
  dfs_terminates (fun _ => 'a') Trie.init 0 [] [] 20 (by decide)

/-! ### Trie well-formedness and in-bounds access (claim C8) -/

/-- Every child index stored in the trie is `-1` or a valid node index. -/
def Trie.wf (tr : Trie) : Prop :=
  0 < tr.t.length ∧ ∀ v : Nat, v < tr.t.length → ∀ k : Fin 26,
    (tr.getNode v).next k = -1 ∨
    (0 ≤ (tr.getNode v).next k ∧ ((tr.getNode v).next k).toNat < tr.t.length)

theorem trieInit_wf : Trie.init.wf := by
  constructor
  · simp [Trie.init]
  · intro v hv k
    simp only [Trie.init, List.length_singleton] at hv
    interval_cases v
    left
    rfl

theorem getD_set_self (l : List TrieNode) (v : Nat) (a : TrieNode) (h : v < l.length) :
    (l.set v a).getD v emptyNode = a := by
  simp [List.getD_eq_getElem?_getD, List.getElem?_set_self', h]

theorem getD_set_other (l : List TrieNode) (v u : Nat) (a : TrieNode) (h : v ≠ u) :
    (l.set v a).getD u emptyNode = l.getD u emptyNode := by
  simp [List.getD_eq_getElem?_getD, List.getElem?_set_ne, h]

theorem getD_concat_lt (l : List TrieNode) (a : TrieNode) (u : Nat) (h : u < l.length) :
    (l.concat a).getD u emptyNode = l.getD u emptyNode := by
  simp [List.getD_eq_getElem?_getD, List.concat_eq_append, List.getElem?_append, h]

theorem getD_concat_self (l : List TrieNode) (a : TrieNode) :
    (l.concat a).getD l.length emptyNode = a := by
  simp [List.getD_eq_getElem?_getD, List.concat_eq_append, List.getElem?_append_right]

theorem insertAux_wf :
    ∀ (w : List (Fin 26)) (tr : Trie) (v : Nat), tr.wf → v < tr.t.length →
      (tr.insertAux v w).wf := by
  intro w
  induction w with
  | nil =>
    intro tr v hwf hv
    simp only [Trie.insertAux]
    have hL : (⟨tr.t.set v ⟨(tr.getNode v).next, true⟩⟩ : Trie).t.length = tr.t.length :=
      List.length_set _ _ _
    refine ⟨by rw [hL]; exact hwf.1, ?_⟩
    intro u hu k
    rw [hL] at hu ⊢
    by_cases huv : u = v
    · subst huv
      have hgn : (⟨tr.t.set u (⟨(tr.getNode u).next, true⟩ : TrieNode)⟩ : Trie).getNode u
          = ⟨(tr.getNode u).next, true⟩ :=
        getD_set_self tr.t u _ hu
      rw [hgn]
      exact hwf.2 u hu k
    · have hgn : (⟨tr.t.set v (⟨(tr.getNode v).next, true⟩ : TrieNode)⟩ : Trie).getNode u
          = tr.getNode u :=
        getD_set_other tr.t v u _ (fun h => huv h.symm)
      rw [hgn]
      exact hwf.2 u hu k
  | cons k rest ih =>
    intro tr v hwf hv
    simp only [Trie.insertAux]
    by_cases hk : (tr.getNode v).next k = -1
    · rw [if_pos hk]
      have hsetlen :
          (tr.t.set v ⟨Function.update (tr.getNode v).next k (tr.t.length : Int),
            (tr.getNode v).terminal⟩).length = tr.t.length :=
        List.length_set _ _ _
      have hT'len : (⟨(tr.t.set v ⟨Function.update (tr.getNode v).next k (tr.t.length : Int),
          (tr.getNode v).terminal⟩).concat emptyNode⟩ : Trie).t.length = tr.t.length + 1 := by
        rw [show (⟨(tr.t.set v ⟨Function.update (tr.getNode v).next k (tr.t.length : Int),
          (tr.getNode v).terminal⟩).concat emptyNode⟩ : Trie).t.length
          = ((tr.t.set v ⟨Function.update (tr.getNode v).next k (tr.t.length : Int),
            (tr.getNode v).terminal⟩).concat emptyNode).length from rfl]
        rw [List.length_concat, hsetlen]
      have hwf' : (⟨(tr.t.set v ⟨Function.update (tr.getNode v).next k (tr.t.length : Int),
          (tr.getNode v).terminal⟩).concat emptyNode⟩ : Trie).wf := by
        refine ⟨by rw [hT'len]; omega, ?_⟩
        intro u hu k'
        rw [hT'len] at hu ⊢
        by_cases huL : u = tr.t.length
        · subst huL
          have hgn : (⟨(tr.t.set v ⟨Function.update (tr.getNode v).next k
              (tr.t.length : Int), (tr.getNode v).terminal⟩).concat emptyNode⟩ : Trie).getNode
                tr.t.length = emptyNode := by
            have := getD_concat_self (tr.t.set v ⟨Function.update (tr.getNode v).next k
              (tr.t.length : Int), (tr.getNode v).terminal⟩) emptyNode
            rw [hsetlen] at this
            exact this
          rw [hgn]
          left
          rfl
        · have huLt : u < tr.t.length := by omega
          have hgn : (⟨(tr.t.set v ⟨Function.update (tr.getNode v).next k
              (tr.t.length : Int), (tr.getNode v).terminal⟩).concat emptyNode⟩ : Trie).getNode u
              = (tr.t.set v ⟨Function.update (tr.getNode v).next k (tr.t.length : Int),
                (tr.getNode v).terminal⟩).getD u emptyNode :=
            getD_concat_lt _ emptyNode u (by rw [hsetlen]; exact huLt)
          rw [hgn]
          by_cases huv : u = v
          · subst huv
            rw [getD_set_self tr.t u _ huLt]
            show Function.update (tr.getNode u).next k (tr.t.length : Int) k' = -1 ∨
              0 ≤ Function.update (tr.getNode u).next k (tr.t.length : Int) k' ∧
                (Function.update (tr.getNode u).next k (tr.t.length : Int) k').toNat
                  < tr.t.length + 1
            by_cases hkk : k' = k
            · subst hkk
              rw [Function.update_same]
              right
              constructor
              · exact Int.ofNat_nonneg _
              · omega
            · rw [Function.update_noteq hkk]
              rcases hwf.2 u huLt k' with h | h
              · left; exact h
              · right; exact ⟨h.1, by omega⟩
          · rw [getD_set_other tr.t v u _ (fun h => huv h.symm)]
            rcases hwf.2 u huLt k' with h | h
            · left; exact h
            · right
              refine ⟨h.1, ?_⟩
              have h2 := h.2
              unfold Trie.getNode at h2
              omega
      refine ih _ tr.t.length hwf' (by rw [hT'len]; omega)
    · rw [if_neg hk]
      rcases hwf.2 v hv k with h | h
      · exact absurd h hk
      · exact ih tr ((tr.getNode v).next k).toNat hwf h.2

theorem insert_wf (tr : Trie) (w : List (Fin 26)) (hwf : tr.wf) : (tr.insert w).wf :=
  insertAux_wf w tr 0 hwf hwf.1

/-- Every trie the `Dictionary` constructor builds is well-formed. -/
theorem buildTrie_wf (toks : List (List Char)) : (buildTrie toks).wf := by
  unfold buildTrie
  refine foldl_invariant Trie.wf _ ?_ toks Trie.init trieInit_wf
  intro tr w hwf
  dsimp only
  split
  · exact insert_wf _ _ hwf
  · exact hwf

/-- A mirror of the DFS recursion that records whether every trie-node
access (`trie.t[trieNode]`, `trie.t[nxt]`) along the search is in bounds
(child-table accesses are in bounds by construction of the a–z check). -/
def dfsOk (fuel : Nat) (cell : Fin 16) (usedMask trieNode : Nat)
    (board : Fin 16 → Char) (tr : Trie) : Bool :=
  match fuel with
  | 0 => true
  | fuel + 1 =>
    decide (trieNode < tr.t.length) &&
    (if h : 97 ≤ (board cell).toNat ∧ (board cell).toNat < 123 then
      let nxt := childIdx tr trieNode ⟨(board cell).toNat - 97, by omega⟩
      if nxt = -1 then true
      else
        decide (nxt.toNat < tr.t.length) &&
        ((neighbors cell).all fun nb =>
          if (usedMask ||| 1 <<< cell.val) >>> nb.val &&& 1 = 1 then true
          else dfsOk fuel nb (usedMask ||| 1 <<< cell.val) nxt.toNat board tr)
    else true)

theorem dfsOk_of_wf (tr : Trie) (hwf : tr.wf) :
    ∀ (fuel : Nat) (cell : Fin 16) (mask node : Nat) (board : Fin 16 → Char),
      node < tr.t.length → dfsOk fuel cell mask node board tr = true := by
  intro fuel
  induction fuel with
  | zero => intros; rfl
  | succ fuel ih =>
    intro cell mask node board hnode
    simp only [dfsOk]
    rw [Bool.and_eq_true]
    refine ⟨by simpa using hnode, ?_⟩
    by_cases hr : 97 ≤ (board cell).toNat ∧ (board cell).toNat < 123
    · rw [dif_pos hr]
      by_cases hn : childIdx tr node ⟨(board cell).toNat - 97, by omega⟩ = -1
      · rw [if_pos hn]
      · rw [if_neg hn]
        rw [Bool.and_eq_true]
        have hbound := hwf.2 node hnode ⟨(board cell).toNat - 97, by omega⟩
        rcases hbound with h | h
        · exact absurd h hn
        · refine ⟨by simpa using h.2, ?_⟩
          rw [List.all_eq_true]
          intro nb _
          by_cases hv : (mask ||| 1 <<< cell.val) >>> nb.val &&& 1 = 1
          · rw [if_pos hv]
          · rw [if_neg hv]
            exact ih nb _ _ board h.2
    · rw [dif_neg hr]

/-- **C8.** The search never errors on any 16-cell board array: (i) a cell
letter outside `a`–`z` makes the branch return with the state untouched and
no recursion (silent prune, no exception); (ii) on a well-formed trie every
trie-node access of the search is in bounds, starting from any in-bounds
node; (iii) every trie the dictionary constructor builds is well-formed, so
real searches only ever make in-bounds accesses. -/
theorem dfs_no_errors :
    (∀ (fuel : Nat) (cell : Fin 16) (mask node : Nat) (board : Fin 16 → Char)
       (tr : Trie) (cur : List Char) (out : List (List Char)),
       ¬ (97 ≤ (board cell).toNat ∧ (board cell).toNat < 123) →
       dfs fuel cell mask node board tr cur out = (cur, out)) ∧
    (∀ (tr : Trie), tr.wf →
       ∀ (fuel : Nat) (cell : Fin 16) (mask node : Nat) (board : Fin 16 → Char),
         node < tr.t.length → dfsOk fuel cell mask node board tr = true) ∧
    (∀ toks : List (List Char), (buildTrie toks).wf) := by
  refine ⟨?_, fun tr hwf => dfsOk_of_wf tr hwf, buildTrie_wf⟩
  intro fuel cell mask node board tr cur out hr
  match fuel with
  | 0 => rfl
  | fuel + 1 =>
    simp only [dfs]
    rw [dif_neg hr]

/-- Witness for C8: a board of `'!'` letters is pruned immediately; the
empty dictionary's trie is well-formed and all accesses are in bounds. -/
theorem dfs_no_errors_witness :
    dfs 16 0 0 0 (fun _ => '!') Trie.init [] [] = ([], []) ∧
    dfsOk 16 0 0 0 (fun _ => 'a') (buildTrie []) = true :=
  ⟨dfs_no_errors.1 16 0 0 0 (fun _ => '!') Trie.init [] [] (by decide),
   dfs_no_errors.2.1 (buildTrie []) (dfs_no_errors.2.2 [])
     16 0 0 0 (fun _ => 'a') (by decide)⟩

/-! ### DFS state restoration (claim C6) -/

/-- **C6.** On every exit path of `dfs_all_words` — fuel exhaustion, the
out-of-range-letter prune, the absent-trie-child prune, and the normal
push/recurse/pop path — the shared path string comes back exactly as it
was at entry (and the caller's mask, passed by value, is untouched by
construction), so sibling branches never observe leftover mutation. -/
theorem dfs_preserves_cur :
    ∀ (fuel : Nat) (cell : Fin 16) (mask node : Nat) (board : Fin 16 → Char)
      (tr : Trie) (cur : List Char) (out : List (List Char)),
      (dfs fuel cell mask node board tr cur out).1 = cur := by
  intro fuel
  induction fuel with
  | zero => intros; rfl
  | succ fuel ih =>
    intro cell mask node board tr cur out
    simp only [dfs]
    by_cases hr : 97 ≤ (board cell).toNat ∧ (board cell).toNat < 123
    · rw [dif_pos hr]
      by_cases hn : childIdx tr node ⟨(board cell).toNat - 97, by omega⟩ = -1
      · rw [if_pos hn]
      · rw [if_neg hn]
        have hfold := foldl_fst_invariant
          (fun st nb =>
            if (mask ||| 1 <<< cell.val) >>> nb.val &&& 1 = 1 then st
            else dfs fuel nb (mask ||| 1 <<< cell.val)
              (childIdx tr node ⟨(board cell).toNat - 97, by omega⟩).toNat board tr st.1 st.2)
          (fun st nb => by
            dsimp only
            by_cases hv : (mask ||| 1 <<< cell.val) >>> nb.val &&& 1 = 1
            · rw [if_pos hv]
            · rw [if_neg hv]; exact ih _ _ _ _ _ _ _)
          (neighbors cell)
        simp only [hfold]
        simp
    · rw [dif_neg hr]

/-! ### Scoring (claim C3) -/

/-- **C3.** `word_score` is 0 below length 3, matches the fixed table on
3–7, equals `2200 + 400·(L − 8)` for `L ≥ 8`, and is monotonically
non-decreasing. -/
theorem word_score_spec :
    (∀ L : Int, L < 3 → word_score L = 0) ∧
    word_score 3 = 100 ∧ word_score 4 = 400 ∧ word_score 5 = 800 ∧
    word_score 6 = 1400 ∧ word_score 7 = 1800 ∧
    (∀ L : Int, 8 ≤ L → word_score L = 2200 + 400 * (L - 8)) ∧
    (∀ L₁ L₂ : Int, L₁ ≤ L₂ → word_score L₁ ≤ word_score L₂) := by
  refine ⟨?_, by decide, by decide, by decide, by decide, by decide, ?_, ?_⟩
  · intro L h
    unfold word_score
    rw [if_pos h]
  · intro L h
    unfold word_score
    split_ifs <;> omega
  · intro L₁ L₂ h
    unfold word_score
    split_ifs <;> omega

/-- Witness for C3 at concrete lengths. -/
theorem word_score_spec_witness :
    word_score 2 = 0 ∧ word_score 10 = 3000 ∧ word_score 5 ≤ word_score 9 :=
  ⟨word_score_spec.1 2 (by decide),
   word_score_spec.2.2.2.2.2.2.1 10 (by decide),
   word_score_spec.2.2.2.2.2.2.2 5 9 (by decide)⟩

/-! ### Invalid boards (claim C2) -/

/-- **C2 counterexample.** A board string *containing a digit* does not
necessarily raise the invalid-board error: non-letter characters are
stripped before counting, so `"abcdefghijklmnop1"` (16 letters plus the
digit `'1'`) parses successfully and `solve` returns a result. -/
theorem solve_digit_board_not_error :
    ('1' ∈ "abcdefghijklmnop1".data ∧ 48 ≤ '1'.toNat ∧ '1'.toNat ≤ 57) ∧
    (Dictionary.build []).solve "abcdefghijklmnop1".data = Except.ok ([], 0) := by
  constructor
  · decide
  · rfl

/-- **C2 (amended).** `solve` raises the invalid-board error, for every
dictionary state alike (the parse error depends only on the input string,
leaving the built trie/adjacency unaffected), exactly when the board
string's alphabetic characters do not number 16 — in particular for every
string with only 15 letters, and for a digit-containing string precisely
when its letters do not number 16. The error is produced by board parsing,
before any search work. -/
theorem solve_invalid_board (s : List Char) (d : Dictionary)
    (h : (s.filter isalphaB).length ≠ 16) :
    d.solve s = Except.error "board string must contain 16 letters" := by
  unfold Dictionary.solve parse_board_string
  rw [if_neg (by simpa using h)]

/-- Witness for C2 (amended): a 15-letter board string is rejected. -/
theorem solve_invalid_board_witness :
    (Dictionary.build []).solve "abcdefghijklmno".data =
      Except.error "board string must contain 16 letters" :=
  solve_invalid_board _ _ (by decide)

/-! ### Board generation (claim C4) -/

/-- Every value drawn from the generator fits in 32 bits. -/
theorem mtNext_le (g : MTState) : (mtNext g).1 ≤ mtMask := by
  unfold mtNext mtTemper
  exact Nat.and_le_right

/-- The categorical sampler always lands on one of the 26 letters. -/
theorem sampleLetterIdx_lt (x : Nat) (hx : x ≤ mtMask) : sampleLetterIdx x < 26 := by
  have hsum : freqW.sum = 10002 := by decide
  have htarget : x * freqW.sum / 4294967296 < freqW.sum := by
    rw [Nat.div_lt_iff_lt_mul (by norm_num)]
    calc x * freqW.sum ≤ mtMask * freqW.sum := Nat.mul_le_mul_right _ hx
      _ < freqW.sum * 4294967296 := by rw [hsum]; norm_num [mtMask]
  have hmem : (10002 : Nat) ∈ cumW := by decide
  have hlen : cumW.length = 26 := by decide
  have hfind := List.findIdx_lt_length_of_exists
    (p := fun s => decide (x * freqW.sum / 4294967296 < s))
    ⟨10002, hmem, by simp only [decide_eq_true_eq]; omega⟩
  show List.findIdx (fun s => decide (x * freqW.sum / 4294967296 < s)) cumW < 26
  rw [hlen] at hfind
  exact hfind

/-- Each drawn letter is a lowercase `a`–`z` character. -/
theorem random_letter_range (g : MTState) :
    97 ≤ (random_letter g).1.toNat ∧ (random_letter g).1.toNat ≤ 122 := by
  unfold random_letter
  have h := sampleLetterIdx_lt (mtNext g).1 (mtNext_le g)
  have : (Char.ofNat (97 + sampleLetterIdx (mtNext g).1)).toNat
      = 97 + sampleLetterIdx (mtNext g).1 := by
    unfold Char.ofNat
    rw [dif_pos (by omega)]
    rfl
  simp only [this]
  omega

/-- Shape of the generation fold: each step appends one in-range letter. -/
theorem drawFold_shape (n : Nat) : ∀ (l : List Char) (g : MTState),
    (((List.range n).foldl drawStep (l, g)).1.length = l.length + n) ∧
    (∀ c ∈ ((List.range n).foldl drawStep (l, g)).1,
      c ∈ l ∨ (97 ≤ c.toNat ∧ c.toNat ≤ 122)) := by
  induction n with
  | zero => intro l g; exact ⟨by simp, fun c hc => Or.inl (by simpa using hc)⟩
  | succ n ih =>
    intro l g
    rw [List.range_succ, List.foldl_append]
    obtain ⟨hlen, hmem⟩ := ih l g
    set st := (List.range n).foldl drawStep (l, g) with hst
    constructor
    · simp only [List.foldl_cons, List.foldl_nil, drawStep]
      simp [hlen]
      omega
    · intro c hc
      simp only [List.foldl_cons, List.foldl_nil, drawStep] at hc
      simp only [List.concat_eq_append, List.mem_append, List.mem_singleton] at hc
      rcases hc with hc | hc
      · exact hmem c hc
      · right; rw [hc]; exact random_letter_range st.2

/-- **C4.** `generate_board` is deterministic in the seed (it is a pure
function of the seed alone), and always returns exactly 16 characters,
each a lowercase letter (`97 ≤ toNat ≤ 122`, i.e. `a`–`z`). -/
theorem generate_board_spec (seed : Nat) :
    generate_board seed = generate_board seed ∧
    (generate_board seed).length = 16 ∧
    ∀ c ∈ generate_board seed, 97 ≤ c.toNat ∧ c.toNat ≤ 122 := by
  refine ⟨rfl, ?_, ?_⟩
  · have := (drawFold_shape 16 [] (mtInit seed)).1
    simpa [generate_board] using this
  · intro c hc
    have := (drawFold_shape 16 [] (mtInit seed)).2 c (by simpa [generate_board] using hc)
    simpa using this


/-! ### Empty dictionary (claim C10) -/

/-- In the root-only trie every child slot of every node is absent. -/
theorem childIdx_init (v : Nat) (k : Fin 26) : childIdx Trie.init v k = -1 := by
  unfold childIdx Trie.getNode Trie.init
  match v with
  | 0 => rfl
  | v + 1 => rfl

/-- With the root-only trie the DFS prunes immediately at every cell. -/
theorem dfs_init (fuel : Nat) (cell : Fin 16) (mask node : Nat)
    (board : Fin 16 → Char) (cur : List Char) (out : List (List Char)) :
    dfs fuel cell mask node board Trie.init cur out = (cur, out) := by
  match fuel with
  | 0 => rfl
  | fuel + 1 =>
    simp only [dfs]
    by_cases hr : 97 ≤ (board cell).toNat ∧ (board cell).toNat < 123
    · rw [dif_pos hr, if_pos (childIdx_init node _)]
    · rw [dif_neg hr]

/-- A fold whose step is the identity returns its start state. -/
theorem foldl_id {α β : Type} (f : α → β → α) (h : ∀ st b, f st b = st) :
    ∀ (l : List β) (st : α), l.foldl f st = st := by
  intro l
  induction l with
  | nil => intro st; rfl
  | cons a l ih => intro st; rw [List.foldl_cons, h, ih]

/-- If no token passes the filter, the constructor inserts nothing. -/
theorem buildTrie_no_accept :
    ∀ (toks : List (List Char)),
      (∀ w ∈ toks, ¬ (w.all isalphaB = true ∧ 3 ≤ w.length)) →
      buildTrie toks = Trie.init := by
  intro toks
  induction toks with
  | nil => intro _; rfl
  | cons w toks ih =>
    intro h
    have hw : ¬ (w.all isalphaB && decide (3 ≤ (w.map tolowerC).length)) = true := by
      intro hcond
      rw [Bool.and_eq_true, decide_eq_true_eq] at hcond
      exact h w (List.mem_cons_self w toks) ⟨hcond.1, by simpa using hcond.2⟩
    show (w :: toks).foldl _ Trie.init = Trie.init
    have hstep :
        (if (w.all isalphaB && decide (3 ≤ (w.map tolowerC).length)) = true then
          Trie.init.insert ((w.map tolowerC).map letterIdx)
        else Trie.init) = Trie.init := if_neg hw
    rw [List.foldl_cons, hstep]
    exact ih (fun x hx => h x (List.mem_cons_of_mem w hx))

/-- **C10.** A dictionary built from a source in which no token passes the
filter (e.g. an empty file) is constructed without error (construction is
total in the model), leaves the trie with only the root node, and every
subsequent solve on any board returns the empty word list with total
score 0. -/
theorem empty_dictionary_solve :
    (∀ toks : List (List Char),
      (∀ w ∈ toks, ¬ (w.all isalphaB = true ∧ 3 ≤ w.length)) →
      buildTrie toks = Trie.init) ∧
    Trie.init.t = [emptyNode] ∧
    (∀ board : Fin 16 → Char, solveCore board Trie.init = ([], 0)) := by
  refine ⟨buildTrie_no_accept, rfl, ?_⟩
  intro board
  unfold solveCore solveFound
  rw [foldl_id _ (fun st i => (dfs_init 16 i 0 0 board st.1 st.2).trans rfl)]
  rfl

/-- Witness for C10: the empty token list builds the root-only trie, and a
concrete board solves to the empty result. -/
theorem empty_dictionary_solve_witness :
    buildTrie [] = Trie.init ∧ solveCore (fun _ => 'a') Trie.init = ([], 0) :=
  ⟨empty_dictionary_solve.1 [] (by simp),
   empty_dictionary_solve.2.2 (fun _ => 'a')⟩

/-! ### Dictionary build policy (claim C9) -/

/-- `Char.ofNat` of a scalar below the surrogate range keeps its value. -/
theorem toNat_ofNat_char (n : Nat) (h : n < 55296) : (Char.ofNat n).toNat = n := by
  unfold Char.ofNat
  rw [dif_pos (Or.inl h)]
  rfl

/-- Lowercasing an alphabetic character lands in `a`–`z`. -/
theorem tolowerC_range (c : Char) (h : isalphaB c = true) :
    97 ≤ (tolowerC c).toNat ∧ (tolowerC c).toNat ≤ 122 := by
  unfold isalphaB at h
  rw [Bool.or_eq_true, Bool.and_eq_true, Bool.and_eq_true,
    decide_eq_true_eq, decide_eq_true_eq, decide_eq_true_eq, decide_eq_true_eq] at h
  unfold tolowerC
  by_cases hu : 65 ≤ c.toNat ∧ c.toNat ≤ 90
  · rw [if_pos hu]
    rw [toNat_ofNat_char _ (by omega)]
    omega
  · rw [if_neg hu]
    omega

/-- The constructor's fold factors through the accepted-word list. -/
theorem buildTrie_eq_foldl_accepted :
    ∀ (toks : List (List Char)) (tr : Trie),
      toks.foldl
        (fun tr w =>
          if w.all isalphaB && decide (3 ≤ (w.map tolowerC).length) then
            tr.insert ((w.map tolowerC).map letterIdx)
          else tr) tr
      = (acceptedWords toks).foldl (fun tr s => tr.insert (s.map letterIdx)) tr := by
  intro toks
  induction toks with
  | nil => intro tr; rfl
  | cons w toks ih =>
    intro tr
    by_cases hc : (w.all isalphaB && decide (3 ≤ (w.map tolowerC).length)) = true
    · rw [List.foldl_cons, if_pos hc]
      unfold acceptedWords
      rw [List.filterMap_cons_some (by rw [if_pos hc]), List.foldl_cons]
      exact ih _
    · rw [List.foldl_cons, if_neg hc]
      unfold acceptedWords
      rw [List.filterMap_cons_none (by rw [if_neg hc])]
      exact ih tr

/-- Membership in the accepted-word list. -/
theorem mem_acceptedWords (toks : List (List Char)) (s : List Char) :
    s ∈ acceptedWords toks ↔
      ∃ w ∈ toks, w.all isalphaB = true ∧ s = w.map tolowerC ∧ 3 ≤ s.length := by
  unfold acceptedWords
  rw [List.mem_filterMap]
  constructor
  · rintro ⟨w, hw, hf⟩
    by_cases hc : (w.all isalphaB && decide (3 ≤ (w.map tolowerC).length)) = true
    · rw [if_pos hc] at hf
      rw [Bool.and_eq_true, decide_eq_true_eq] at hc
      injection hf with hf
      exact ⟨w, hw, hc.1, hf.symm, by rw [← hf]; exact hc.2⟩
    · rw [if_neg hc] at hf
      exact absurd hf (by simp)
  · rintro ⟨w, hw, hall, hs, hlen⟩
    refine ⟨w, hw, ?_⟩
    rw [if_pos ?_]
    · rw [hs]
    · rw [Bool.and_eq_true, decide_eq_true_eq]
      exact ⟨hall, by rw [← hs]; exact hlen⟩

/-- **C9.** A raw token is inserted into the trie iff all of its characters
are alphabetic and its lowercased form has length ≥ 3 (tokens that fail the
filter are skipped, and the model's construction is total, so the load
never aborts): the constructor's fold factors through `acceptedWords`,
membership there is exactly the filter condition, and every accepted word
has length ≥ 3 and consists solely of lowercase `a`–`z`. -/
theorem dictionary_build_policy (toks : List (List Char)) :
    (buildTrie toks
      = (acceptedWords toks).foldl (fun tr s => tr.insert (s.map letterIdx)) Trie.init) ∧
    (∀ s : List Char, s ∈ acceptedWords toks ↔
      ∃ w ∈ toks, w.all isalphaB = true ∧ s = w.map tolowerC ∧ 3 ≤ s.length) ∧
    (∀ s ∈ acceptedWords toks, 3 ≤ s.length ∧ ∀ c ∈ s, 97 ≤ c.toNat ∧ c.toNat ≤ 122) := by
  refine ⟨buildTrie_eq_foldl_accepted toks Trie.init, mem_acceptedWords toks, ?_⟩
  intro s hs
  rw [mem_acceptedWords] at hs
  obtain ⟨w, _, hall, hs, hlen⟩ := hs
  refine ⟨hlen, ?_⟩
  intro c hc
  rw [hs] at hc
  rw [List.mem_map] at hc
  obtain ⟨c', hc', rfl⟩ := hc
  rw [List.all_eq_true] at hall
  exact tolowerC_range c' (hall c' hc')

/-- Witness for C9 on a concrete token list: of
`["cat", "x1", "ab", "DOG"]` exactly `"cat"` and `"dog"` are accepted. -/
theorem dictionary_build_policy_witness :
    (3 ≤ "cat".data.length ∧ ∀ c ∈ "cat".data, 97 ≤ c.toNat ∧ c.toNat ≤ 122) ∧
    ("dog".data ∈ acceptedWords ["cat".data, "x1".data, "ab".data, "DOG".data]) :=
  ⟨(dictionary_build_policy ["cat".data, "x1".data, "ab".data, "DOG".data]).2.2
      "cat".data (by decide),
   ((dictionary_build_policy ["cat".data, "x1".data, "ab".data, "DOG".data]).2.1
      "dog".data).mpr ⟨"DOG".data, by decide, by decide, by decide, by decide⟩⟩

/-! ### The search contract (claim C1) -/

/-- Walk the trie from node `v` along a character string, with the same
per-character `a`–`z` check the search applies (`child(node, letter)` in
the spec). -/
def walkC (tr : Trie) (v : Nat) : List Char → Option Nat
  | [] => some v
  | ch :: rest =>
    if h : 97 ≤ ch.toNat ∧ ch.toNat < 123 then
      let nx := childIdx tr v ⟨ch.toNat - 97, by omega⟩
      if nx = -1 then none else walkC tr nx.toNat rest
    else none

/-- Whether a walk from node `v` ends on a terminal node. -/
def walkTerm (tr : Trie) (v : Nat) (w : List Char) : Bool :=
  match walkC tr v w with
  | some u => (tr.getNode u).terminal
  | none => false

/-- "The word is present in the trie": the walk from the root ends on a
terminal node. -/
def containsWord (tr : Trie) (w : List Char) : Bool := walkTerm tr 0 w

/-- The words one DFS call adds to the found set: those spelled as
`cur ++ letters of p` by a self-avoiding walk `p` that starts at `cell`,
avoids the mask, follows the adjacency graph, reaches a terminal trie node
from `node`, and has total length ≥ 3. -/
def Spellable (board : Fin 16 → Char) (tr : Trie) (cell : Fin 16) (mask : Nat)
    (node : Nat) (cur : List Char) (w : List Char) : Prop :=
  ∃ p : List (Fin 16), p.head? = some cell ∧ p.Nodup ∧
    (∀ c ∈ p, ¬ mask.testBit c.val) ∧
    List.Chain' (fun a b => b ∈ neighbors a) p ∧
    w = cur ++ p.map board ∧
    walkTerm tr node (p.map board) = true ∧
    3 ≤ w.length

/-- A word is spellable on the board: some nonempty self-avoiding
adjacency path spells it. -/
def SpellableOnBoard (board : Fin 16 → Char) (w : List Char) : Prop :=
  ∃ p : List (Fin 16), p ≠ [] ∧ p.Nodup ∧
    List.Chain' (fun a b => b ∈ neighbors a) p ∧ w = p.map board

theorem insertWord_mem (w x : List Char) (out : List (List Char)) :
    x ∈ insertWord w out ↔ x ∈ out ∨ x = w := by
  unfold insertWord
  by_cases h : w ∈ out
  · rw [if_pos h]
    constructor
    · exact Or.inl
    · rintro (hx | rfl)
      · exact hx
      · exact h
  · rw [if_neg h]
    rw [List.mem_cons]
    tauto

theorem insertWord_nodup (w : List Char) (out : List (List Char)) (h : out.Nodup) :
    (insertWord w out).Nodup := by
  unfold insertWord
  by_cases hm : w ∈ out
  · rw [if_pos hm]; exact h
  · rw [if_neg hm]; exact List.Nodup.cons hm h

/-- No branch starting on an out-of-range letter spells anything. -/
theorem spellable_not_range (board : Fin 16 → Char) (tr : Trie) (cell : Fin 16)
    (mask node : Nat) (cur w : List Char)
    (hr : ¬ (97 ≤ (board cell).toNat ∧ (board cell).toNat < 123)) :
    ¬ Spellable board tr cell mask node cur w := by
  rintro ⟨p, hhead, -, -, -, -, hterm, -⟩
  match p, hhead with
  | c :: rest, hhead =>
    have hc : c = cell := by
      simp only [List.head?_cons, Option.some_inj] at hhead
      exact hhead
    subst hc
    unfold walkTerm at hterm
    rw [List.map_cons] at hterm
    unfold walkC at hterm
    rw [dif_neg hr] at hterm
    exact Bool.false_ne_true hterm

/-- No branch whose first trie child is absent spells anything. -/
theorem spellable_no_child (board : Fin 16 → Char) (tr : Trie) (cell : Fin 16)
    (mask node : Nat) (cur w : List Char)
    (hr : 97 ≤ (board cell).toNat ∧ (board cell).toNat < 123)
    (hn : childIdx tr node ⟨(board cell).toNat - 97, by omega⟩ = -1) :
    ¬ Spellable board tr cell mask node cur w := by
  rintro ⟨p, hhead, -, -, -, -, hterm, -⟩
  match p, hhead with
  | c :: rest, hhead =>
    have hc : c = cell := by
      simp only [List.head?_cons, Option.some_inj] at hhead
      exact hhead
    subst hc
    unfold walkTerm at hterm
    rw [List.map_cons] at hterm
    unfold walkC at hterm
    rw [dif_pos hr] at hterm
    simp only [hn, if_pos] at hterm
    exact Bool.false_ne_true hterm

/-- One step of the trie walk on an in-range letter with a present child. -/
theorem walkTerm_cons (tr : Trie) (node : Nat) (ch : Char) (rest : List Char)
    (hr : 97 ≤ ch.toNat ∧ ch.toNat < 123)
    (hn : childIdx tr node ⟨ch.toNat - 97, by omega⟩ ≠ -1) :
    walkTerm tr node (ch :: rest)
      = walkTerm tr (childIdx tr node ⟨ch.toNat - 97, by omega⟩).toNat rest := by
  unfold walkTerm
  conv_lhs => rw [walkC]
  rw [dif_pos hr, if_neg hn]

/-- The empty walk ends where it starts. -/
theorem walkTerm_nil (tr : Trie) (node : Nat) :
    walkTerm tr node [] = (tr.getNode node).terminal := rfl

/-- Bit membership in the extended mask, at cell granularity. -/
theorem testBit_mask1 (mask : Nat) (cell c : Fin 16) :
    (mask ||| 1 <<< cell.val).testBit c.val = true ↔
      (mask.testBit c.val = true ∨ c = cell) := by
  rw [testBit_or_shift]
  simp only [Bool.or_eq_true, decide_eq_true_eq]
  constructor
  · rintro (h | h)
    · exact Or.inl h
    · exact Or.inr (Fin.ext h)
  · rintro (h | rfl)
    · exact Or.inl h
    · exact Or.inr rfl

/-- Decomposition of the one-call contract: with an in-range letter and a
present child, a call either reports `cur` plus this letter (if the child
is terminal and long enough) or defers to an unvisited neighbor. -/
theorem spellable_decomp
    (board : Fin 16 → Char) (tr : Trie) (cell : Fin 16) (mask node : Nat)
    (cur w : List Char)
    (hr : 97 ≤ (board cell).toNat ∧ (board cell).toNat < 123)
    (hn : childIdx tr node ⟨(board cell).toNat - 97, by omega⟩ ≠ -1)
    (hcell : ¬ mask.testBit cell.val = true) :
    Spellable board tr cell mask node cur w ↔
      ((tr.getNode (childIdx tr node ⟨(board cell).toNat - 97, by omega⟩).toNat).terminal
          = true ∧ 3 ≤ (cur ++ [board cell]).length ∧ w = cur ++ [board cell])
      ∨ ∃ nb ∈ neighbors cell, ¬ (mask ||| 1 <<< cell.val).testBit nb.val = true ∧
          Spellable board tr nb (mask ||| 1 <<< cell.val)
            (childIdx tr node ⟨(board cell).toNat - 97, by omega⟩).toNat
            (cur ++ [board cell]) w := by
  constructor
  · rintro ⟨p, hhead, hnodup, havoid, hchain, hw, hterm, hlen⟩
    obtain ⟨rest, rfl⟩ : ∃ rest, p = cell :: rest := by
      match p, hhead with
      | c :: rest, hhead =>
        refine ⟨rest, ?_⟩
        simp only [List.head?_cons, Option.some_inj] at hhead
        rw [hhead]
    rw [List.map_cons, walkTerm_cons tr node (board cell) _ hr hn] at hterm
    rw [List.nodup_cons] at hnodup
    match rest, hnodup, havoid, hchain, hw, hterm, hlen with
    | [], hnodup, havoid, hchain, hw, hterm, hlen =>
      left
      rw [List.map_nil, walkTerm_nil] at hterm
      rw [List.map_singleton] at hw
      exact ⟨hterm, by rw [← hw]; exact hlen, hw⟩
    | nb :: rest2, hnodup, havoid, hchain, hw, hterm, hlen =>
      right
      have hchain' := List.chain'_cons.mp hchain
      have hnbmem : nb ∈ neighbors cell := hchain'.1
      have hnbrest : nb ∈ nb :: rest2 := List.mem_cons_self nb rest2
      have havoid1 : ∀ c ∈ nb :: rest2, ¬ (mask ||| 1 <<< cell.val).testBit c.val = true := by
        intro c hcmem
        rw [testBit_mask1]
        rintro (h | rfl)
        · exact havoid c (List.mem_cons_of_mem cell hcmem) h
        · exact hnodup.1 hcmem
      refine ⟨nb, hnbmem, havoid1 nb hnbrest, ?_⟩
      refine ⟨nb :: rest2, rfl, hnodup.2, havoid1, hchain'.2, ?_, hterm, hlen⟩
      rw [hw, List.map_cons]
      simp
  · rintro (⟨hterm, hlen, hw⟩ | ⟨nb, hnbmem, hnb, p', hh', hnd', hav', hch', hw', hterm', hlen'⟩)
    · refine ⟨[cell], rfl, by simp, ?_, by simp, by simpa using hw, ?_, ?_⟩
      · intro c hc
        rw [List.mem_singleton] at hc
        subst hc
        exact hcell
      · rw [List.map_singleton, walkTerm_cons tr node (board cell) [] hr hn, walkTerm_nil]
        exact hterm
      · rw [hw]
        exact hlen
    · have hcellp : cell ∉ p' := by
        intro hmem
        exact hav' cell hmem (by rw [testBit_mask1]; exact Or.inr rfl)
      refine ⟨cell :: p', rfl, List.nodup_cons.mpr ⟨hcellp, hnd'⟩, ?_, ?_, ?_, ?_, hlen'⟩
      · intro c hc
        rw [List.mem_cons] at hc
        rcases hc with rfl | hc
        · exact hcell
        · intro hbit
          exact hav' c hc (by rw [testBit_mask1]; exact Or.inl hbit)
      · rw [List.chain'_cons']
        refine ⟨?_, hch'⟩
        intro y hy
        rw [hh', Option.mem_def, Option.some_inj] at hy
        subst hy
        exact hnbmem
      · rw [hw', List.map_cons]
        simp
      · rw [List.map_cons, walkTerm_cons tr node (board cell) _ hr hn]
        exact hterm'

/-- The one-call contract of `dfs_all_words`: with enough fuel, the final
found-set contains exactly the prior words plus every word `Spellable`
from this configuration. -/
theorem dfs_mem :
    ∀ (fuel : Nat) (cell : Fin 16) (mask node : Nat) (board : Fin 16 → Char)
      (tr : Trie) (cur : List Char) (out : List (List Char)) (w : List Char),
      ¬ mask.testBit cell.val = true → 16 - vCount mask ≤ fuel →
      (w ∈ (dfs fuel cell mask node board tr cur out).2 ↔
        w ∈ out ∨ Spellable board tr cell mask node cur w) := by
  intro fuel
  induction fuel with
  | zero =>
    intro cell mask node board tr cur out w hcell hfuel
    have hlt := vCount_lt mask cell (by simpa using hcell)
    exact absurd hfuel (by omega)
  | succ fuel ih =>
    intro cell mask node board tr cur out w hcell hfuel
    simp only [dfs]
    by_cases hr : 97 ≤ (board cell).toNat ∧ (board cell).toNat < 123
    · rw [dif_pos hr]
      by_cases hn : childIdx tr node ⟨(board cell).toNat - 97, by omega⟩ = -1
      · rw [if_pos hn]
        show w ∈ out ↔ _
        constructor
        · exact Or.inl
        · rintro (h | h)
          · exact h
          · exact absurd h (spellable_no_child board tr cell mask node cur w hr hn)
      · rw [if_neg hn]
        have hcnt := vCount_or mask cell (by simpa using hcell)
        have hfold : ∀ (ns : List (Fin 16)) (o : List (List Char)) (x : List Char),
            x ∈ ((ns.foldl (fun st nb =>
              if (mask ||| 1 <<< cell.val) >>> nb.val &&& 1 = 1 then st
              else dfs fuel nb (mask ||| 1 <<< cell.val)
                (childIdx tr node ⟨(board cell).toNat - 97, by omega⟩).toNat board tr st.1 st.2)
              (cur ++ [board cell], o)).2) ↔
            x ∈ o ∨ ∃ nb ∈ ns, ¬ (mask ||| 1 <<< cell.val).testBit nb.val = true ∧
              Spellable board tr nb (mask ||| 1 <<< cell.val)
                (childIdx tr node ⟨(board cell).toNat - 97, by omega⟩).toNat
                (cur ++ [board cell]) x := by
          intro ns
          induction ns with
          | nil => intro o x; simp
          | cons nb ns ihn =>
            intro o x
            rw [List.foldl_cons]
            by_cases hv : (mask ||| 1 <<< cell.val) >>> nb.val &&& 1 = 1
            · dsimp only
              rw [if_pos hv, ihn o x]
              have hbit := (bit_one_iff _ _).mp hv
              constructor
              · rintro (h | ⟨y, hy, hb, hs⟩)
                · exact Or.inl h
                · exact Or.inr ⟨y, List.mem_cons_of_mem nb hy, hb, hs⟩
              · rintro (h | ⟨y, hy, hb, hs⟩)
                · exact Or.inl h
                · rw [List.mem_cons] at hy
                  rcases hy with rfl | hy
                  · exact absurd hbit hb
                  · exact Or.inr ⟨y, hy, hb, hs⟩
            · have hnb : ¬ (mask ||| 1 <<< cell.val).testBit nb.val = true := by
                rw [← bit_one_iff]
                exact hv
              have h1 := dfs_preserves_cur fuel nb (mask ||| 1 <<< cell.val)
                (childIdx tr node ⟨(board cell).toNat - 97, by omega⟩).toNat board tr
                (cur ++ [board cell]) o
              dsimp only
              rw [if_neg hv]
              rw [show dfs fuel nb (mask ||| 1 <<< cell.val)
                  (childIdx tr node ⟨(board cell).toNat - 97, by omega⟩).toNat board tr
                  (cur ++ [board cell]) o
                = ((dfs fuel nb (mask ||| 1 <<< cell.val)
                     (childIdx tr node ⟨(board cell).toNat - 97, by omega⟩).toNat board tr
                     (cur ++ [board cell]) o).1,
                   (dfs fuel nb (mask ||| 1 <<< cell.val)
                     (childIdx tr node ⟨(board cell).toNat - 97, by omega⟩).toNat board tr
                     (cur ++ [board cell]) o).2) from rfl, h1]
              rw [ihn _ x]
              have hdfs := ih nb (mask ||| 1 <<< cell.val)
                (childIdx tr node ⟨(board cell).toNat - 97, by omega⟩).toNat board tr
                (cur ++ [board cell]) o x hnb (by omega)
              rw [hdfs]
              constructor
              · rintro ((h | hsp) | ⟨y, hy, hb, hs⟩)
                · exact Or.inl h
                · exact Or.inr ⟨nb, List.mem_cons_self nb ns, hnb, hsp⟩
                · exact Or.inr ⟨y, List.mem_cons_of_mem nb hy, hb, hs⟩
              · rintro (h | ⟨y, hy, hb, hs⟩)
                · exact Or.inl (Or.inl h)
                · rw [List.mem_cons] at hy
                  rcases hy with rfl | hy
                  · exact Or.inl (Or.inr hs)
                  · exact Or.inr ⟨y, hy, hb, hs⟩
        show w ∈ (List.foldl _ (cur ++ [board cell], _) (neighbors cell)).2 ↔ _
        rw [hfold (neighbors cell) _ w]
        have hout1 : w ∈ (if ((tr.getNode (childIdx tr node
              ⟨(board cell).toNat - 97, by omega⟩).toNat).terminal
              && decide (3 ≤ (cur ++ [board cell]).length)) = true then
              insertWord (cur ++ [board cell]) out else out) ↔
            w ∈ out ∨ ((tr.getNode (childIdx tr node
              ⟨(board cell).toNat - 97, by omega⟩).toNat).terminal = true ∧
              3 ≤ (cur ++ [board cell]).length ∧ w = cur ++ [board cell]) := by
          by_cases hc : ((tr.getNode (childIdx tr node
              ⟨(board cell).toNat - 97, by omega⟩).toNat).terminal
              && decide (3 ≤ (cur ++ [board cell]).length)) = true
          · rw [if_pos hc, insertWord_mem]
            simp only [Bool.and_eq_true, decide_eq_true_eq] at hc
            constructor
            · rintro (h | rfl)
              · exact Or.inl h
              · exact Or.inr ⟨hc.1, hc.2, rfl⟩
            · rintro (h | ⟨-, -, rfl⟩)
              · exact Or.inl h
              · exact Or.inr rfl
          · rw [if_neg hc]
            simp only [Bool.and_eq_true, decide_eq_true_eq] at hc
            constructor
            · exact Or.inl
            · rintro (h | ⟨ht, hl, rfl⟩)
              · exact h
              · exact absurd ⟨ht, hl⟩ hc
        rw [hout1, spellable_decomp board tr cell mask node cur w hr hn hcell]
        tauto
    · rw [dif_neg hr]
      show w ∈ out ↔ _
      constructor
      · exact Or.inl
      · rintro (h | h)
        · exact h
        · exact absurd h (spellable_not_range board tr cell mask node cur w hr)

/-- Membership in the found set of the 16-start search. -/
theorem solveFound_mem (board : Fin 16 → Char) (tr : Trie) (w : List Char) :
    w ∈ (solveFound board tr).2 ↔ ∃ i : Fin 16, Spellable board tr i 0 0 [] w := by
  unfold solveFound
  have hgen : ∀ (cs : List (Fin 16)) (o : List (List Char)),
      w ∈ ((cs.foldl (fun st i => dfs 16 i 0 0 board tr st.1 st.2) ([], o)).2) ↔
        w ∈ o ∨ ∃ i ∈ cs, Spellable board tr i 0 0 [] w := by
    intro cs
    induction cs with
    | nil => intro o; simp
    | cons c cs ihc =>
      intro o
      rw [List.foldl_cons]
      dsimp only
      have h1 := dfs_preserves_cur 16 c 0 0 board tr [] o
      rw [show dfs 16 c 0 0 board tr [] o
          = ((dfs 16 c 0 0 board tr [] o).1, (dfs 16 c 0 0 board tr [] o).2) from rfl, h1]
      rw [ihc _]
      have hdfs := dfs_mem 16 c 0 0 board tr [] o w (by simp) (by rw [vCount_zero])
      rw [hdfs]
      constructor
      · rintro ((h | hsp) | ⟨i, hi, hs⟩)
        · exact Or.inl h
        · exact Or.inr ⟨c, List.mem_cons_self c cs, hsp⟩
        · exact Or.inr ⟨i, List.mem_cons_of_mem c hi, hs⟩
      · rintro (h | ⟨i, hi, hs⟩)
        · exact Or.inl (Or.inl h)
        · rw [List.mem_cons] at hi
          rcases hi with rfl | hi
          · exact Or.inl (Or.inr hs)
          · exact Or.inr ⟨i, hi, hs⟩
  rw [hgen (List.finRange 16) []]
  simp [List.mem_finRange]

/-- From any start the zero-mask search words are exactly the trie words
spellable on the board. -/
theorem spellable_top_iff (board : Fin 16 → Char) (tr : Trie) (w : List Char) :
    (∃ i : Fin 16, Spellable board tr i 0 0 [] w) ↔
      (3 ≤ w.length ∧ containsWord tr w = true ∧ SpellableOnBoard board w) := by
  constructor
  · rintro ⟨i, p, hhead, hnd, hav, hch, hw, hterm, hlen⟩
    have hw' : w = p.map board := by simpa using hw
    have hpne : p ≠ [] := by
      intro h
      rw [h] at hhead
      simp at hhead
    refine ⟨hlen, ?_, ⟨p, hpne, hnd, hch, hw'⟩⟩
    unfold containsWord
    rw [hw']
    exact hterm
  · rintro ⟨hlen, hcont, p, hpne, hnd, hch, hw⟩
    match p, hpne, hnd, hch, hw with
    | i :: rest, _, hnd, hch, hw =>
      refine ⟨i, i :: rest, rfl, hnd, ?_, hch, by simpa using hw, ?_, hlen⟩
      · intro c _
        simp [Nat.zero_testBit]
      · unfold containsWord at hcont
        rw [← hw]
        exact hcont

/-! ### Output order and total score (claim C5) -/

theorem char_toNat_inj (a b : Char) (h : a.toNat = b.toNat) : a = b := by
  have h2 := Char.ofNat_toNat a
  have h3 := Char.ofNat_toNat b
  rw [← h2, ← h3, h]

/-- `lexLt` is connex: two strings compare one way, the other, or are equal. -/
theorem lexLt_connex : ∀ (a b : List Char),
    lexLt a b = true ∨ lexLt b a = true ∨ a = b := by
  intro a
  induction a with
  | nil =>
    intro b
    match b with
    | [] => exact Or.inr (Or.inr rfl)
    | y :: bs => exact Or.inl rfl
  | cons x as iha =>
    intro b
    match b with
    | [] => exact Or.inr (Or.inl rfl)
    | y :: bs =>
      by_cases hxy : x.toNat < y.toNat
      · left
        simp only [lexLt]
        rw [if_pos hxy]
      · by_cases hyx : y.toNat < x.toNat
        · right; left
          simp only [lexLt]
          rw [if_pos hyx]
        · have hxyeq : x = y := char_toNat_inj x y (by omega)
          subst hxyeq
          rcases iha bs with h | h | h
          · left
            simp only [lexLt]
            rw [if_neg hxy, if_neg hxy]
            exact h
          · right; left
            simp only [lexLt]
            rw [if_neg hxy, if_neg hxy]
            exact h
          · right; right
            rw [h]

/-- `lexLt` is transitive. -/
theorem lexLt_trans : ∀ (a b c : List Char),
    lexLt a b = true → lexLt b c = true → lexLt a c = true := by
  intro a
  induction a with
  | nil =>
    intro b c hab hbc
    match b, hab with
    | y :: bs, _ =>
      match c, hbc with
      | z :: cs, _ => rfl
  | cons x as iha =>
    intro b c hab hbc
    match b, hab with
    | y :: bs, hab =>
      match c, hbc with
      | z :: cs, hbc =>
        simp only [lexLt] at hab hbc ⊢
        by_cases hxy : x.toNat < y.toNat
        · by_cases hyz : y.toNat < z.toNat
          · rw [if_pos (by omega)]
          · rw [if_neg hyz] at hbc
            by_cases hzy : z.toNat < y.toNat
            · rw [if_pos hzy] at hbc
              exact absurd hbc (by simp)
            · rw [if_pos (by omega)]
        · rw [if_neg hxy] at hab
          by_cases hyx : y.toNat < x.toNat
          · rw [if_pos hyx] at hab
            exact absurd hab (by simp)
          · rw [if_neg hyx] at hab
            have hxyeq : x = y := char_toNat_inj x y (by omega)
            subst hxyeq
            by_cases hyz : x.toNat < z.toNat
            · rw [if_pos hyz]
            · rw [if_neg hyz] at hbc ⊢
              by_cases hzy : z.toNat < x.toNat
              · rw [if_pos hzy] at hbc
                exact absurd hbc (by simp)
              · rw [if_neg hzy] at hbc ⊢
                exact iha bs cs hab hbc

instance : IsTotal (List Char) wordLE := by
  constructor
  intro a b
  unfold wordLE
  rcases Nat.lt_trichotomy a.length b.length with h | h | h
  · right; exact Or.inl h
  · rcases lexLt_connex a b with hl | hl | hl
    · left; exact Or.inr ⟨h, Or.inl hl⟩
    · right; exact Or.inr ⟨h.symm, Or.inl hl⟩
    · left; exact Or.inr ⟨h, Or.inr hl⟩
  · left; exact Or.inl h

instance : IsTrans (List Char) wordLE := by
  constructor
  intro a b c hab hbc
  unfold wordLE at hab hbc ⊢
  rcases hab with h1 | ⟨h1, hl1⟩
  · rcases hbc with h2 | ⟨h2, hl2⟩
    · exact Or.inl (by omega)
    · exact Or.inl (by omega)
  · rcases hbc with h2 | ⟨h2, hl2⟩
    · exact Or.inl (by omega)
    · refine Or.inr ⟨by omega, ?_⟩
      rcases hl1 with hl1 | rfl
      · rcases hl2 with hl2 | rfl
        · exact Or.inl (lexLt_trans a b c hl1 hl2)
        · exact Or.inl hl1
      · exact hl2

/-- The DFS only ever set-inserts, so the found list stays duplicate-free. -/
theorem dfs_nodup :
    ∀ (fuel : Nat) (cell : Fin 16) (mask node : Nat) (board : Fin 16 → Char)
      (tr : Trie) (cur : List Char) (out : List (List Char)),
      out.Nodup → (dfs fuel cell mask node board tr cur out).2.Nodup := by
  intro fuel
  induction fuel with
  | zero => intro _ _ _ _ _ _ out h; exact h
  | succ fuel ih =>
    intro cell mask node board tr cur out h
    simp only [dfs]
    by_cases hr : 97 ≤ (board cell).toNat ∧ (board cell).toNat < 123
    · rw [dif_pos hr]
      by_cases hn : childIdx tr node ⟨(board cell).toNat - 97, by omega⟩ = -1
      · rw [if_pos hn]
        exact h
      · rw [if_neg hn]
        have hout1 : (if ((tr.getNode (childIdx tr node
              ⟨(board cell).toNat - 97, by omega⟩).toNat).terminal
              && decide (3 ≤ (cur ++ [board cell]).length)) = true then
              insertWord (cur ++ [board cell]) out else out).Nodup := by
          by_cases hc : ((tr.getNode (childIdx tr node
              ⟨(board cell).toNat - 97, by omega⟩).toNat).terminal
              && decide (3 ≤ (cur ++ [board cell]).length)) = true
          · rw [if_pos hc]
            exact insertWord_nodup _ _ h
          · rw [if_neg hc]
            exact h
        have hfold := foldl_invariant
          (fun (st : List Char × List (List Char)) => st.2.Nodup)
          (fun st nb =>
            if (mask ||| 1 <<< cell.val) >>> nb.val &&& 1 = 1 then st
            else dfs fuel nb (mask ||| 1 <<< cell.val)
              (childIdx tr node ⟨(board cell).toNat - 97, by omega⟩).toNat board tr st.1 st.2)
          (fun st nb hst => by
            dsimp only
            by_cases hv : (mask ||| 1 <<< cell.val) >>> nb.val &&& 1 = 1
            · rw [if_pos hv]; exact hst
            · rw [if_neg hv]; exact ih _ _ _ _ _ _ _ hst)
          (neighbors cell)
          (cur ++ [board cell],
            if ((tr.getNode (childIdx tr node
              ⟨(board cell).toNat - 97, by omega⟩).toNat).terminal
              && decide (3 ≤ (cur ++ [board cell]).length)) = true then
              insertWord (cur ++ [board cell]) out else out)
          hout1
        exact hfold
    · rw [dif_neg hr]
      exact h

/-- The found set of a whole solve is duplicate-free. -/
theorem solveFound_nodup (board : Fin 16 → Char) (tr : Trie) :
    (solveFound board tr).2.Nodup := by
  unfold solveFound
  exact foldl_invariant
    (fun (st : List Char × List (List Char)) => st.2.Nodup)
    (fun st i => dfs 16 i 0 0 board tr st.1 st.2)
    (fun st i hst => dfs_nodup 16 i 0 0 board tr st.1 st.2 hst)
    (List.finRange 16) ([], []) List.nodup_nil

/-- The score accumulation is the sum of the per-word scores. -/
theorem foldl_score_sum :
    ∀ (l : List (List Char)) (a : Int),
      l.foldl (fun acc w => acc + word_score (w.length : Int)) a
        = a + (l.map (fun w => word_score (w.length : Int))).sum := by
  intro l
  induction l with
  | nil => intro a; simp
  | cons x l ihl =>
    intro a
    rw [List.foldl_cons, ihl, List.map_cons, List.sum_cons]
    ring

/-- **C5.** For every valid board, the word list of `solve` is sorted by
descending length then ascending lexicographic order, is duplicate-free,
and the returned total equals the sum of `word_score(len w)` over the
distinct returned words (each word counted once, never per path). -/
theorem solve_sorted_nodup_total (board : Fin 16 → Char) (tr : Trie)
    (hboard : ∀ i : Fin 16, 97 ≤ (board i).toNat ∧ (board i).toNat < 123) :
    List.Sorted wordLE (solveCore board tr).1 ∧
    (solveCore board tr).1.Nodup ∧
    (solveCore board tr).2
      = ((solveCore board tr).1.map (fun w => word_score (w.length : Int))).sum := by
  refine ⟨?_, ?_, ?_⟩
  · show List.Sorted wordLE (List.insertionSort wordLE (solveFound board tr).2)
    exact List.sorted_insertionSort wordLE _
  · show (List.insertionSort wordLE (solveFound board tr).2).Nodup
    exact ((List.perm_insertionSort wordLE _).nodup_iff).mpr (solveFound_nodup board tr)
  · show (List.insertionSort wordLE (solveFound board tr).2).foldl
        (fun acc w => acc + word_score (w.length : Int)) 0 = _
    rw [foldl_score_sum]
    rw [zero_add]
    rfl

/-- Witness for C5 at a concrete valid board and dictionary. -/
theorem solve_sorted_nodup_total_witness :
    List.Sorted wordLE (solveCore (fun _ => 'a') Trie.init).1 ∧
    (solveCore (fun _ => 'a') Trie.init).1.Nodup ∧
    (solveCore (fun _ => 'a') Trie.init).2
      = ((solveCore (fun _ => 'a') Trie.init).1.map
          (fun w => word_score (w.length : Int))).sum :=
  solve_sorted_nodup_total (fun _ => 'a') Trie.init (by decide)

/-- **C1.** For every valid 16-letter board and every trie, `solve`'s word
list is exactly the set of distinct strings of length ≥ 3 that are present
in the trie and spellable by a self-avoiding king-move walk starting at
some cell: membership is characterized by that property, and the list is
duplicate-free, so each word appears at most once even when multiple
distinct paths spell it. -/
theorem solve_words_spec (board : Fin 16 → Char) (tr : Trie)
    (hboard : ∀ i : Fin 16, 97 ≤ (board i).toNat ∧ (board i).toNat < 123) :
    (solveCore board tr).1.Nodup ∧
    ∀ w : List Char,
      w ∈ (solveCore board tr).1 ↔
        (3 ≤ w.length ∧ containsWord tr w = true ∧ SpellableOnBoard board w) := by
  constructor
  · show (List.insertionSort wordLE (solveFound board tr).2).Nodup
    exact ((List.perm_insertionSort wordLE _).nodup_iff).mpr (solveFound_nodup board tr)
  · intro w
    show w ∈ List.insertionSort wordLE (solveFound board tr).2 ↔ _
    rw [List.mem_insertionSort, solveFound_mem, spellable_top_iff]

/-- Witness for C1: on the all-`'a'` board with dictionary `{"aaa"}` the
characterization holds, instantiated at the concrete word `"aaa"`. -/
theorem solve_words_spec_witness :
    (solveCore (fun _ => 'a') (buildTrie ["aaa".data])).1.Nodup ∧
    ("aaa".data ∈ (solveCore (fun _ => 'a') (buildTrie ["aaa".data])).1 ↔
      (3 ≤ "aaa".data.length ∧
        containsWord (buildTrie ["aaa".data]) "aaa".data = true ∧
        SpellableOnBoard (fun _ => 'a') "aaa".data)) :=
  ⟨(solve_words_spec (fun _ => 'a') (buildTrie ["aaa".data]) (by decide)).1,
   (solve_words_spec (fun _ => 'a') (buildTrie ["aaa".data]) (by decide)).2 "aaa".data⟩
